import Mathlib

/-!
Verification of the meshtastic-docker build tooling.

This development gives a shallow embedding of the repository's version-selection,
build-orchestration and image-location logic.  Strings from the JavaScript source
are modelled as `List Char`; the external npm semver library functions used by the
source (semver.valid, semver.parse, semver.compare, semver.satisfies) are modelled
faithfully from their documented grammar and precedence rules.  Child processes
(the container build, the image listing, the interactive shell) are modelled by
explicit outcome parameters.
-/

/-! ### Characters, digits and trimming -/

/-- Decimal value of a digit run, as computed by JS parseInt(s, 10) on an
all-digit string (exact for the inputs considered here). -/
def digitsToNat (l : List Char) : Nat :=
  l.foldl (fun acc c => 10 * acc + (c.toNat - 48)) 0

/-- Whitespace recognised by JS String.prototype.trim (ASCII subset). -/
def jsSpace (c : Char) : Bool :=
  c = ' ' || c = '\t' || c = '\n' || c = '\r' || c = '\x0b' || c = '\x0c'

/-- JS String.prototype.trim on a char list. -/
def jsTrim (l : List Char) : List Char :=
  ((l.dropWhile jsSpace).reverse.dropWhile jsSpace).reverse

/-- JS Number.MAX_SAFE_INTEGER, the bound the semver library places on numeric
version components. -/
def MAX_SAFE_INTEGER : Nat := 9007199254740991

/-- The character class [a-zA-Z0-9.-] appearing in the tag-extraction regexes of
build.js and bash.js. -/
def semverTailChar (c : Char) : Bool :=
  c.isAlpha || c.isDigit || c = '.' || c = '-'

/-- The character class [a-zA-Z0-9-] of semver prerelease/build identifiers. -/
def preIdChar (c : Char) : Bool :=
  c.isAlpha || c.isDigit || c = '-'

/-! ### The semver data model (npm semver library, strict mode) -/

/-- A prerelease identifier: the npm semver library stores an all-digit
identifier below MAX_SAFE_INTEGER as a number and anything else as a string. -/
inductive PreId where
  | num (n : Nat)
  | str (s : List Char)
deriving DecidableEq, Repr

/-- A parsed semantic version.  Build metadata is accepted by the grammar but
ignored for precedence, so it is not stored. -/
structure SemVer where
  major : Nat
  minor : Nat
  patch : Nat
  prerelease : List PreId
deriving DecidableEq, Repr

/-- Parse a numeric version core (major, minor or patch): a maximal digit run
matching 0|[1-9][0-9]* whose value is at most MAX_SAFE_INTEGER.  Returns the
value and the unconsumed remainder. -/
def parseNumCore (l : List Char) : Option (Nat × List Char) :=
  let d := l.takeWhile Char.isDigit
  let r := l.dropWhile Char.isDigit
  if d != [] && (d == ['0'] || d.headD ' ' != '0')
      && decide (digitsToNat d ≤ MAX_SAFE_INTEGER) then
    some (digitsToNat d, r)
  else
    none

/-- Split a char list at every dot, keeping empty segments. -/
def splitOnDot : List Char → List (List Char)
  | [] => [[]]
  | c :: rest =>
    if c = '.' then [] :: splitOnDot rest
    else
      match splitOnDot rest with
      | [] => [[c]]
      | s :: ss => (c :: s) :: ss

/-- Validity of one prerelease identifier: nonempty, drawn from [a-zA-Z0-9-],
and if all digits then without a leading zero. -/
def validPreIdChars (s : List Char) : Bool :=
  s != [] && s.all preIdChar &&
    (!(s.all Char.isDigit) || s == ['0'] || s.headD ' ' != '0')

/-- Validity of one build-metadata identifier: nonempty, drawn from [a-zA-Z0-9-]. -/
def validBuildIdChars (s : List Char) : Bool :=
  s != [] && s.all preIdChar

/-- Interpret a valid prerelease identifier the way the npm SemVer constructor
does: an all-digit identifier strictly below MAX_SAFE_INTEGER becomes a number,
anything else stays a string. -/
def toPreId (s : List Char) : PreId :=
  if s != [] && s.all Char.isDigit && decide (digitsToNat s < MAX_SAFE_INTEGER) then
    .num (digitsToNat s)
  else
    .str s

/-- Parse the trimmed text of a version against the npm semver FULL grammar:
major.minor.patch, optional -prerelease, optional +build, end of string. -/
def semverParseCore (s : List Char) : Option SemVer :=
  match parseNumCore s with
  | none => none
  | some (maj, r1) =>
    match r1 with
    | '.' :: r1a =>
      match parseNumCore r1a with
      | none => none
      | some (mino, r2) =>
        match r2 with
        | '.' :: r2a =>
          match parseNumCore r2a with
          | none => none
          | some (pat, r3) =>
            let preChars := r3.takeWhile (fun c => c != '+')
            let buildChars := r3.dropWhile (fun c => c != '+')
            let pres : Option (List PreId) :=
              match preChars with
              | [] => some []
              | '-' :: pc =>
                if (splitOnDot pc).all validPreIdChars then
                  some ((splitOnDot pc).map toPreId)
                else none
              | _ => none
            let buildOk : Bool :=
              match buildChars with
              | [] => true
              | '+' :: bc => (splitOnDot bc).all validBuildIdChars
              | _ => false
            match pres, buildOk with
            | some ps, true => some ⟨maj, mino, pat, ps⟩
            | _, _ => none
        | _ => none
    | _ => none

/-- npm semver.parse in strict mode: reject overlong input, trim, then match the
FULL grammar.  semver.valid(v) is non-null exactly when this returns some. -/
def semverParse (l : List Char) : Option SemVer :=
  if l.length > 256 then none else semverParseCore (jsTrim l)

/-- npm semver.valid as a Boolean: does the string parse as a semantic version. -/
def semverValid (l : List Char) : Bool :=
  (semverParse l).isSome

/-! ### Semver precedence (npm semver.compare) -/

/-- Three-way comparison of naturals. -/
def natCmp (a b : Nat) : Ordering :=
  if a < b then .lt else if b < a then .gt else .eq

/-- Lexicographic comparison of char lists by code point, the JS string
comparison used by compareIdentifiers for non-numeric identifiers. -/
def charListCmp : List Char → List Char → Ordering
  | [], [] => .eq
  | [], _ :: _ => .lt
  | _ :: _, [] => .gt
  | a :: as, b :: bs =>
    if a.toNat < b.toNat then .lt
    else if b.toNat < a.toNat then .gt
    else charListCmp as bs

/-- npm compareIdentifiers: numbers compare numerically, a number is below any
string, strings compare as JS strings. -/
def preIdCmp : PreId → PreId → Ordering
  | .num a, .num b => natCmp a b
  | .num _, .str _ => .lt
  | .str _, .num _ => .gt
  | .str a, .str b => charListCmp a b

/-- Elementwise comparison of prerelease identifier lists: first difference
decides; a list that runs out first is smaller. -/
def preListCmp : List PreId → List PreId → Ordering
  | [], [] => .eq
  | [], _ :: _ => .lt
  | _ :: _, [] => .gt
  | a :: as, b :: bs => (preIdCmp a b).then (preListCmp as bs)

/-- npm comparePre: a version without prerelease is above any version with one;
otherwise identifier lists compare elementwise. -/
def preCmp (a b : List PreId) : Ordering :=
  match a, b with
  | [], [] => .eq
  | [], _ :: _ => .gt
  | _ :: _, [] => .lt
  | _ :: _, _ :: _ => preListCmp a b

/-- npm semver.compare on parsed versions: numeric triple, then prerelease. -/
def semverCmp (a b : SemVer) : Ordering :=
  (natCmp a.major b.major).then
    ((natCmp a.minor b.minor).then
      ((natCmp a.patch b.patch).then (preCmp a.prerelease b.prerelease)))

/-- Total extension of semver.compare to parse results.  In the source every
list that reaches a comparison contains only valid versions, so the ordering of
the none cases is unobservable; it is fixed only to keep the relation total. -/
def semverCmpOpt : Option SemVer → Option SemVer → Ordering
  | some a, some b => semverCmp a b
  | some _, none => .gt
  | none, some _ => .lt
  | none, none => .eq

/-- semver.compare on version strings. -/
def semverCmpStr (a b : List Char) : Ordering :=
  semverCmpOpt (semverParse a) (semverParse b)

/-- npm semver.satisfies, modelled on the fragment of the range language this
repository uses: a single greater-than comparator such as ">2.6.0" (the shape of
MIN_VERSION and of the CLI range argument in the claims).  A version with a
prerelease satisfies the range only if the comparator itself carries a
prerelease on the same major.minor.patch triple; an unparseable range or
version satisfies nothing. -/
def semverSatisfies (version range : List Char) : Bool :=
  match range with
  | '>' :: rest =>
    match semverParse rest, semverParse version with
    | some c, some v =>
      (semverCmp v c == .gt) &&
        (v.prerelease == ([] : List PreId) ||
          (c.prerelease != ([] : List PreId) && v.major == c.major
            && v.minor == c.minor && v.patch == c.patch))
    | _, _ => false
  | _ => false

/-! ### build.js: version catalog and selector -/

/-- A catalog entry as built by getAllValidVersions: the raw tag and the
extracted version text. -/
structure VersionEntry where
  tag : List Char
  version : List Char
deriving DecidableEq, Repr

/-- tag.replace(/^v/, ''): drop one leading v if present. -/
def stripLeadingV : List Char → List Char
  | 'v' :: rest => rest
  | l => l

/-- Leading match of the digit triple \d+\.\d+\.\d+ shared by the extraction
regexes of build.js and bash.js: maximal digit runs separated by dots.
Returns the matched text and the remainder. -/
def parseTripleChars (l : List Char) : Option (List Char × List Char) :=
  let d1 := l.takeWhile Char.isDigit
  let r1 := l.dropWhile Char.isDigit
  if d1 == [] then none else
  match r1 with
  | '.' :: r1a =>
    let d2 := r1a.takeWhile Char.isDigit
    let r2 := r1a.dropWhile Char.isDigit
    if d2 == [] then none else
    match r2 with
    | '.' :: r2a =>
      let d3 := r2a.takeWhile Char.isDigit
      let r3 := r2a.dropWhile Char.isDigit
      if d3 == [] then none else some (d1 ++ '.' :: d2 ++ '.' :: d3, r3)
    | _ => none
  | _ => none

/-- The tag-to-version extraction of getAllValidVersions: strip a leading v,
then take the leading match of /^(\d+\.\d+\.\d+(?:-[a-zA-Z0-9.-]+)?)/ if there
is one (the optional group greedily takes a maximal nonempty run of class
characters after a hyphen); if the regex does not match, the stripped tag
itself is kept as the version text. -/
def extractVersion (tag : List Char) : List Char :=
  let v := stripLeadingV tag
  match parseTripleChars v with
  | none => v
  | some (t, rest) =>
    match rest with
    | '-' :: r2 =>
      let run := r2.takeWhile semverTailChar
      if run == [] then t else t ++ '-' :: run
    | _ => t

/-- The map step of getAllValidVersions: pair a tag with its extracted version. -/
def mkEntry (tag : List Char) : VersionEntry :=
  ⟨tag, extractVersion tag⟩

/-- The sort comparator (a, b) => semver.compare(b.version, a.version) of
getAllValidVersions, as the relation "a may come before b" (comparator value
at most 0, i.e. descending order). -/
def entryLe (a b : VersionEntry) : Prop :=
  semverCmpStr b.version a.version ≠ .gt

instance : DecidableRel entryLe := fun a b => by
  unfold entryLe
  infer_instance

/-- getAllValidVersions: map tags to entries, keep those whose extracted
version is semver-valid, and sort descending by semver precedence.  The JS
Array.prototype.sort is stable and the comparator is a total preorder, so the
unique stable result is that of a stable insertion sort. -/
def getAllValidVersions (tags : List (List Char)) : List VersionEntry :=
  List.insertionSort entryLe ((tags.map mkEntry).filter (fun e => semverValid e.version))

/-- filterTagsBySemver: keep the catalog entries satisfying the range. -/
def filterTagsBySemver (tags : List (List Char)) (minVersion : List Char) :
    List VersionEntry :=
  (getAllValidVersions tags).filter (fun e => semverSatisfies e.version minVersion)

/-- The major.minor key of an entry, as used by getLatestPatchPerMinor.  The
source keys its seen-map by the string representation of the pair, which is in
bijection with the pair itself. -/
def minorKeyOf (e : VersionEntry) : Option (Nat × Nat) :=
  (semverParse e.version).map (fun p => (p.major, p.minor))

/-- The loop of getLatestPatchPerMinor: one pass, tracking the set of
previously seen major.minor keys; entries whose version does not parse are
skipped, an entry with a fresh key is kept and its key recorded. -/
def glppAux : List (Nat × Nat) → List VersionEntry → List VersionEntry
  | _, [] => []
  | seen, e :: rest =>
    match semverParse e.version with
    | none => glppAux seen rest
    | some p =>
      if (p.major, p.minor) ∈ seen then glppAux seen rest
      else e :: glppAux ((p.major, p.minor) :: seen) rest

/-- getLatestPatchPerMinor of build.js. -/
def getLatestPatchPerMinor (versions : List VersionEntry) : List VersionEntry :=
  glppAux [] versions

/-! ### build.js: build orchestrator -/

/-- Observable behaviour of one spawned container-build process: either the
close event fires with an exit code (null when killed by a signal), or the
error event fires with a message (e.g. spawn failure). -/
inductive BuildOutcome where
  | closed (code : Option Int)
  | spawnError (msg : List Char)
deriving DecidableEq, Repr

/-- The per-version record produced by buildImage. -/
structure BuildResult where
  version : List Char
  imageTag : List Char
  success : Bool
  error : Option (List Char)
deriving DecidableEq, Repr

/-- Decimal digits of a natural number, as JS number-to-string interpolation. -/
def natToChars (n : Nat) : List Char :=
  Nat.toDigits 10 n

/-- Decimal text of an integer. -/
def intToChars (i : Int) : List Char :=
  if i < 0 then '-' :: natToChars i.natAbs else natToChars i.natAbs

/-- Text interpolated for the close code in the failure message: the decimal
exit code, or null for a signal-terminated child. -/
def closeCodeChars : Option Int → List Char
  | none => ("null").toList
  | some c => intToChars c

/-- The IMAGE_NAME constant of build.js. -/
def IMAGE_NAME : List Char :=
  ("benallfree/meshtastic-docker").toList

/-- The imageTag derived by buildImage: v<version>-<buildNum>. -/
def imageTagOf (version : List Char) (buildNum : Nat) : List Char :=
  'v' :: version ++ '-' :: natToChars buildNum

/-- The fullTag derived by buildImage: <IMAGE_NAME>:v<version>-<buildNum>,
the -t argument passed to the container build. -/
def fullTagOf (version : List Char) (buildNum : Nat) : List Char :=
  IMAGE_NAME ++ ':' :: imageTagOf version buildNum

/-- buildImage of build.js, given the outcome of its spawned child process:
the promise resolves (never rejects) with success on exit code 0, and with a
failure record carrying the exit code text or the error message otherwise.
The tag argument only feeds the spawned command line. -/
def buildImage (tag version : List Char) (buildNum : Nat) (outcome : BuildOutcome) :
    BuildResult :=
  match outcome with
  | .closed c =>
    if c == some 0 then ⟨version, imageTagOf version buildNum, true, none⟩
    else
      ⟨version, imageTagOf version buildNum, false,
        some (("Exit code: ").toList ++ closeCodeChars c)⟩
  | .spawnError m => ⟨version, imageTagOf version buildNum, false, some m⟩

/-- buildSequentially of build.js: a plain for-of loop awaiting each build in
plan order and pushing its result; there is no break, so every entry is
attempted.  The oc argument gives the outcome of the i-th spawned process. -/
def buildSequentially : List VersionEntry → Nat → (Nat → BuildOutcome) → List BuildResult
  | [], _, _ => []
  | e :: rest, buildNum, oc =>
    buildImage e.tag e.version buildNum (oc 0)
      :: buildSequentially rest buildNum (fun i => oc (i + 1))

/-! ### bash.js: image locator and shell launcher -/

/-- The literal head of the locator regex
/^meshtastic-docker:v(\d+\.\d+\.\d+(?:-[a-zA-Z0-9.-]+)?)-(\d+)$/ of bash.js. -/
def locatorLead : List Char :=
  ("meshtastic-docker:v").toList

/-- A locally listed image accepted by the locator: the full repository:tag
line, the extracted version text and the parsed build number. -/
structure ImageRef where
  image : List Char
  version : List Char
  buildNum : Nat
deriving DecidableEq, Repr

/-- A valid split point i of the text s after the digit triple: s.get i is a
hyphen, everything after it is a nonempty digit run (the build number), and
the part before it is either empty (the optional prerelease group absent) or
a hyphen followed by a nonempty run of class characters (the group present).
The regex engine prefers the group present and greedy, i.e. the largest i. -/
def validTailSplit (s : List Char) (i : Nat) : Bool :=
  (s.getD i ' ' == '-') &&
    (s.drop (i + 1) != []) && (s.drop (i + 1)).all Char.isDigit &&
    (i == 0 ||
      (decide (2 ≤ i) && s.headD ' ' == '-'
        && ((s.drop 1).take (i - 1)).all semverTailChar))

/-- The split point the backtracking regex engine settles on: the largest
valid one. -/
def lastValidSplit (s : List Char) : Option Nat :=
  ((List.range s.length).filter (fun i => validTailSplit s i)).getLast?

/-- Match v-stripped remainder r against (\d+\.\d+\.\d+(?:-[a-zA-Z0-9.-]+)?)-(\d+)$
and return the captured version text and build number.  The build number is
parseInt of the digit run. -/
def parseVersionBuild (r : List Char) : Option (List Char × Nat) :=
  match parseTripleChars r with
  | none => none
  | some (t, s) =>
    match lastValidSplit s with
    | none => none
    | some i => some (t ++ s.take i, digitsToNat (s.drop (i + 1)))

/-- One line of the image listing matched against the locator regex: the
repository component must be literally meshtastic-docker. -/
def parseImageLine (line : List Char) : Option ImageRef :=
  if locatorLead.isPrefixOf line then
    match parseVersionBuild (line.drop locatorLead.length) with
    | none => none
    | some (v, n) => some ⟨line, v, n⟩
  else none

/-- The locator sort comparator of bash.js: semver.compare(b.version, a.version)
first, then b.buildNum - a.buildNum, as the relation "a may come before b"
(comparator value at most 0: version descending, build number descending). -/
def imageLe (a b : ImageRef) : Prop :=
  semverCmpStr b.version a.version = .lt ∨
    (semverCmpStr b.version a.version = .eq ∧ b.buildNum ≤ a.buildNum)

instance : DecidableRel imageLe := fun a b => by
  unfold imageLe
  infer_instance

/-- The listing filter of bash.js: keep lines with nonempty trimmed text. -/
def trimNonemptyLine (l : List Char) : Bool :=
  jsTrim l != []

/-- The images array of findImageForVersion: nonempty lines matched against
the locator regex, non-matching lines discarded. -/
def locatorParsed (lines : List (List Char)) : List ImageRef :=
  (lines.filter trimNonemptyLine).filterMap parseImageLine

/-- findImageForVersion of bash.js.  The listing argument is the outcome of
the image-listing invocation, already split into lines; an error outcome is
caught by the surrounding try/catch and yields none.  semver.compare throws a
TypeError on an invalid version; the sort comparator is invoked on every
element whenever at least two images parsed, so in that case an invalid
extracted version aborts the sort and the try/catch also yields none (with at
most one image the comparator never runs).  Otherwise the images are sorted
descending, and the result is the first image with version text equal to the
desired version, or the overall first image when no version is desired. -/
def findImageForVersion (listing : Except (List Char) (List (List Char)))
    (desired : Option (List Char)) : Option (List Char) :=
  match listing with
  | .error _ => none
  | .ok lines =>
    let images := locatorParsed lines
    if decide (2 ≤ images.length) && images.any (fun i => !(semverValid i.version)) then
      none
    else
      let sorted := List.insertionSort imageLe images
      match desired with
      | some v => (sorted.find? (fun i => i.version == v)).map (fun i => i.image)
      | none => sorted.head?.map (fun i => i.image)

/-- The close handler of the shell launcher in bash.js:
process.exit(code || 0) — a null close code (signal) becomes 0, any numeric
exit code is propagated unchanged (0 || 0 is 0). -/
def shellCloseExitCode : Option Int → Int
  | none => 0
  | some c => if c == 0 then 0 else c

/-! ### Concrete sample inputs used by witnesses and counterexamples -/

/-- A three-entry build plan. -/
def samplePlanC1 : List VersionEntry :=
  [⟨("v2.7.16").toList, ("2.7.16").toList⟩, ⟨("v2.6.1").toList, ("2.6.1").toList⟩,
    ⟨("v2.5.1").toList, ("2.5.1").toList⟩]

/-- Outcomes where only the second spawned build exits nonzero. -/
def sampleOutcomesC1 : Nat → BuildOutcome :=
  fun i => if i == 1 then .closed (some 1) else .closed (some 0)

/-- A two-entry descending catalog slice. -/
def sampleSortedC2 : List VersionEntry :=
  [⟨("v2.7.16").toList, ("2.7.16").toList⟩, ⟨("v2.7.15").toList, ("2.7.15").toList⟩]

/-- An image listing with two builds of the same version. -/
def sampleLinesC6 : List (List Char) :=
  [("meshtastic-docker:v2.7.16-1").toList, ("meshtastic-docker:v2.7.16-2").toList]

/-! ### Ordering lemmas for the semver comparators -/

theorem ordThen_eq_iff {o p : Ordering} : o.then p = .eq ↔ o = .eq ∧ p = .eq := by
  cases o <;> simp [Ordering.then]

theorem ordThen_lt_iff {o p : Ordering} :
    o.then p = .lt ↔ o = .lt ∨ (o = .eq ∧ p = .lt) := by
  cases o <;> simp [Ordering.then]

theorem ordThen_swap {o p : Ordering} : (o.then p).swap = o.swap.then p.swap := by
  cases o <;> simp [Ordering.then, Ordering.swap]

theorem natCmp_eq_iff {a b : Nat} : natCmp a b = .eq ↔ a = b := by
  unfold natCmp
  split_ifs <;> simp <;> omega

theorem natCmp_lt_iff {a b : Nat} : natCmp a b = .lt ↔ a < b := by
  unfold natCmp
  split_ifs <;> simp <;> omega

theorem natCmp_swap (a b : Nat) : natCmp a b = (natCmp b a).swap := by
  unfold natCmp
  split_ifs <;> first | decide | omega

theorem charEqOfToNat {a b : Char} (h : a.toNat = b.toNat) : a = b := by
  have := congrArg Char.ofNat h
  simpa using this

theorem charListCmp_eq_iff : ∀ {a b : List Char}, charListCmp a b = .eq ↔ a = b
  | [], [] => by simp [charListCmp]
  | [], _ :: _ => by simp [charListCmp]
  | _ :: _, [] => by simp [charListCmp]
  | a :: as, b :: bs => by
    simp only [charListCmp]
    split_ifs with h1 h2
    · simp only [reduceCtorEq, List.cons.injEq, false_iff, not_and]
      intro hab _
      subst hab
      omega
    · simp only [reduceCtorEq, List.cons.injEq, false_iff, not_and]
      intro hab _
      subst hab
      omega
    · have hab : a = b := charEqOfToNat (by omega)
      simp [hab, charListCmp_eq_iff]

theorem charListCmp_swap : ∀ (a b : List Char), charListCmp a b = (charListCmp b a).swap
  | [], [] => by simp [charListCmp, Ordering.swap]
  | [], _ :: _ => by simp [charListCmp, Ordering.swap]
  | _ :: _, [] => by simp [charListCmp, Ordering.swap]
  | a :: as, b :: bs => by
    simp only [charListCmp]
    split_ifs with h1 h2 <;>
      first
        | decide
        | omega
        | (exact charListCmp_swap as bs)

theorem charListCmp_lt_trans : ∀ (a b c : List Char),
    charListCmp a b = .lt → charListCmp b c = .lt → charListCmp a c = .lt := by
  intro a
  induction a with
  | nil =>
    intro b c h1 h2
    cases b with
    | nil => simp [charListCmp] at h1
    | cons y ys =>
      cases c with
      | nil => simp [charListCmp] at h2
      | cons z zs => simp [charListCmp]
  | cons x xs ih =>
    intro b c h1 h2
    cases b with
    | nil => simp [charListCmp] at h1
    | cons y ys =>
      cases c with
      | nil => simp [charListCmp] at h2
      | cons z zs =>
        simp only [charListCmp] at h1 h2 ⊢
        split_ifs at h1 with hxy1 hxy2 <;> split_ifs at h2 with hyz1 hyz2 <;>
          split_ifs with hxz1 hxz2 <;>
          first
            | rfl
            | omega
            | (exact absurd h1 (by decide))
            | (exact absurd h2 (by decide))
            | (exact ih ys zs h1 h2)

theorem preIdCmp_eq_iff : ∀ {a b : PreId}, preIdCmp a b = .eq ↔ a = b
  | .num a, .num b => by
    simp only [preIdCmp, natCmp]
    split_ifs <;> simp <;> omega
  | .num _, .str _ => by simp [preIdCmp]
  | .str _, .num _ => by simp [preIdCmp]
  | .str a, .str b => by simp [preIdCmp, charListCmp_eq_iff]

theorem preIdCmp_swap : ∀ (a b : PreId), preIdCmp a b = (preIdCmp b a).swap
  | .num a, .num b => by
    simp only [preIdCmp, natCmp]
    split_ifs <;> first | decide | omega
  | .num _, .str _ => by simp [preIdCmp, Ordering.swap]
  | .str _, .num _ => by simp [preIdCmp, Ordering.swap]
  | .str a, .str b => by simp [preIdCmp, charListCmp_swap a b]

theorem preIdCmp_lt_trans : ∀ {a b c : PreId},
    preIdCmp a b = .lt → preIdCmp b c = .lt → preIdCmp a c = .lt
  | .num a, .num b, .num c, h1, h2 => by
    simp only [preIdCmp, natCmp_lt_iff] at *
    omega
  | .num _, .num _, .str _, _, _ => by simp [preIdCmp]
  | .num _, .str _, .num _, _, h2 => by simp [preIdCmp] at h2
  | .num _, .str _, .str _, _, _ => by simp [preIdCmp]
  | .str _, .num _, _, h1, _ => by simp [preIdCmp] at h1
  | .str a, .str b, .num _, _, h2 => by simp [preIdCmp] at h2
  | .str a, .str b, .str c, h1, h2 => by
    simp only [preIdCmp] at *
    exact charListCmp_lt_trans a b c h1 h2

theorem preListCmp_eq_iff : ∀ {a b : List PreId}, preListCmp a b = .eq ↔ a = b
  | [], [] => by simp [preListCmp]
  | [], _ :: _ => by simp [preListCmp]
  | _ :: _, [] => by simp [preListCmp]
  | a :: as, b :: bs => by
    simp only [preListCmp, ordThen_eq_iff, preIdCmp_eq_iff, preListCmp_eq_iff,
      List.cons.injEq]

theorem preListCmp_swap : ∀ (a b : List PreId), preListCmp a b = (preListCmp b a).swap
  | [], [] => by simp [preListCmp, Ordering.swap]
  | [], _ :: _ => by simp [preListCmp, Ordering.swap]
  | _ :: _, [] => by simp [preListCmp, Ordering.swap]
  | a :: as, b :: bs => by
    simp only [preListCmp, preIdCmp_swap a b, preListCmp_swap as bs, ordThen_swap]

theorem preListCmp_lt_trans : ∀ {a b c : List PreId},
    preListCmp a b = .lt → preListCmp b c = .lt → preListCmp a c = .lt := by
  intro a
  induction a with
  | nil =>
    intro b c h1 h2
    cases b with
    | nil => simp [preListCmp] at h1
    | cons y ys =>
      cases c with
      | nil => simp [preListCmp] at h2
      | cons z zs => simp [preListCmp]
  | cons x xs ih =>
    intro b c h1 h2
    cases b with
    | nil => simp [preListCmp] at h1
    | cons y ys =>
      cases c with
      | nil => simp [preListCmp] at h2
      | cons z zs =>
        simp only [preListCmp, ordThen_lt_iff, preIdCmp_eq_iff] at h1 h2 ⊢
        rcases h1 with h1 | ⟨rfl, h1⟩
        · rcases h2 with h2 | ⟨rfl, h2⟩
          · exact Or.inl (preIdCmp_lt_trans h1 h2)
          · exact Or.inl h1
        · rcases h2 with h2 | ⟨rfl, h2⟩
          · exact Or.inl h2
          · exact Or.inr ⟨rfl, ih h1 h2⟩

theorem preCmp_eq_iff : ∀ {a b : List PreId}, preCmp a b = .eq ↔ a = b
  | [], [] => by simp [preCmp]
  | [], _ :: _ => by simp [preCmp]
  | _ :: _, [] => by simp [preCmp]
  | _ :: _, _ :: _ => by simp only [preCmp, preListCmp_eq_iff]

theorem preCmp_swap : ∀ (a b : List PreId), preCmp a b = (preCmp b a).swap
  | [], [] => by simp [preCmp, Ordering.swap]
  | [], _ :: _ => by simp [preCmp, Ordering.swap]
  | _ :: _, [] => by simp [preCmp, Ordering.swap]
  | a :: as, b :: bs => by simp only [preCmp, preListCmp_swap (a :: as) (b :: bs)]

theorem preCmp_lt_trans : ∀ {a b c : List PreId},
    preCmp a b = .lt → preCmp b c = .lt → preCmp a c = .lt
  | [], b, c, h1, _ => by
    cases b <;> simp [preCmp] at h1
  | _ :: _, [], c, _, h2 => by
    cases c <;> simp [preCmp] at h2
  | _ :: _, _ :: _, [], _, _ => by simp [preCmp]
  | x :: xs, y :: ys, z :: zs, h1, h2 => by
    simp only [preCmp] at *
    exact preListCmp_lt_trans h1 h2

theorem semverCmp_eq_iff {a b : SemVer} : semverCmp a b = .eq ↔ a = b := by
  cases a
  cases b
  simp only [semverCmp, ordThen_eq_iff, natCmp_eq_iff, preCmp_eq_iff, SemVer.mk.injEq]

theorem semverCmp_swap (a b : SemVer) : semverCmp a b = (semverCmp b a).swap := by
  simp only [semverCmp, natCmp_swap a.major b.major, natCmp_swap a.minor b.minor,
    natCmp_swap a.patch b.patch, preCmp_swap a.prerelease b.prerelease, ordThen_swap]

theorem semverCmp_lt_trans {a b c : SemVer} (h1 : semverCmp a b = .lt)
    (h2 : semverCmp b c = .lt) : semverCmp a c = .lt := by
  simp only [semverCmp, ordThen_lt_iff, ordThen_eq_iff, natCmp_eq_iff,
    natCmp_lt_iff] at h1 h2 ⊢
  rcases h1 with h1 | ⟨e1, h1 | ⟨e2, h1 | ⟨e3, h1⟩⟩⟩ <;>
    rcases h2 with h2 | ⟨f1, h2 | ⟨f2, h2 | ⟨f3, h2⟩⟩⟩ <;>
    first
      | omega
      | (exact Or.inr ⟨by omega, Or.inr ⟨by omega, Or.inr ⟨by omega,
          preCmp_lt_trans h1 h2⟩⟩⟩)

theorem semverCmp_refl (a : SemVer) : semverCmp a a = .eq :=
  semverCmp_eq_iff.mpr rfl

theorem semverCmpOpt_eq_iff : ∀ {a b : Option SemVer}, semverCmpOpt a b = .eq ↔ a = b
  | some _, some _ => by simp [semverCmpOpt, semverCmp_eq_iff]
  | some _, none => by simp [semverCmpOpt]
  | none, some _ => by simp [semverCmpOpt]
  | none, none => by simp [semverCmpOpt]

theorem semverCmpOpt_swap : ∀ (a b : Option SemVer),
    semverCmpOpt a b = (semverCmpOpt b a).swap
  | some a, some b => by simp only [semverCmpOpt, semverCmp_swap a b]
  | some _, none => by simp [semverCmpOpt, Ordering.swap]
  | none, some _ => by simp [semverCmpOpt, Ordering.swap]
  | none, none => by simp [semverCmpOpt, Ordering.swap]

theorem semverCmpOpt_lt_trans : ∀ {a b c : Option SemVer},
    semverCmpOpt a b = .lt → semverCmpOpt b c = .lt → semverCmpOpt a c = .lt
  | some a, some b, some c, h1, h2 => by
    simp only [semverCmpOpt] at *
    exact semverCmp_lt_trans h1 h2
  | some _, some _, none, _, h2 => by simp [semverCmpOpt] at h2
  | some _, none, _, h1, _ => by simp [semverCmpOpt] at h1
  | none, some _, some _, _, _ => by simp [semverCmpOpt]
  | none, some _, none, _, h2 => by simp [semverCmpOpt] at h2
  | none, none, _, h1, _ => by simp [semverCmpOpt] at h1

theorem semverCmpOpt_refl (a : Option SemVer) : semverCmpOpt a a = .eq :=
  semverCmpOpt_eq_iff.mpr rfl

theorem semverCmpOpt_le_trans {a b c : Option SemVer} (h1 : semverCmpOpt a b ≠ .gt)
    (h2 : semverCmpOpt b c ≠ .gt) : semverCmpOpt a c ≠ .gt := by
  cases hab : semverCmpOpt a b with
  | gt => exact absurd hab h1
  | eq =>
    rw [semverCmpOpt_eq_iff.mp hab]
    exact h2
  | lt =>
    cases hbc : semverCmpOpt b c with
    | gt => exact absurd hbc h2
    | eq =>
      rw [← semverCmpOpt_eq_iff.mp hbc]
      simp [hab]
    | lt => simp [semverCmpOpt_lt_trans hab hbc]

theorem semverCmpOpt_le_total (a b : Option SemVer) :
    semverCmpOpt a b ≠ .gt ∨ semverCmpOpt b a ≠ .gt := by
  rw [semverCmpOpt_swap a b]
  cases semverCmpOpt b a <;> simp [Ordering.swap]

/-! ### Supporting lemmas for the claims -/


theorem semverCmpStr_swap (a b : List Char) : semverCmpStr a b = (semverCmpStr b a).swap :=
  semverCmpOpt_swap _ _

theorem entryLe_trans (a b c : VersionEntry) (h1 : entryLe a b) (h2 : entryLe b c) :
    entryLe a c :=
  semverCmpOpt_le_trans h2 h1

theorem entryLe_total (a b : VersionEntry) : entryLe a b ∨ entryLe b a :=
  (semverCmpOpt_le_total _ _).symm

theorem swap_ne_gt_iff {o : Ordering} : o.swap ≠ .gt ↔ o ≠ .lt := by
  cases o <;> simp [Ordering.swap]

theorem entryLe_iff_ge {a b : VersionEntry} :
    entryLe a b ↔ semverCmpStr a.version b.version ≠ .lt := by
  unfold entryLe
  rw [semverCmpStr_swap b.version a.version, swap_ne_gt_iff]

theorem getAllValidVersions_sorted (tags : List (List Char)) :
    (getAllValidVersions tags).Pairwise
      (fun a b => semverCmpStr a.version b.version ≠ .lt) := by
  haveI : IsTrans VersionEntry entryLe := ⟨entryLe_trans⟩
  haveI : IsTotal VersionEntry entryLe := ⟨entryLe_total⟩
  have h := List.sorted_insertionSort entryLe
    ((tags.map mkEntry).filter (fun e => semverValid e.version))
  exact h.imp (fun hab => entryLe_iff_ge.mp hab)

theorem getAllValidVersions_perm (tags : List (List Char)) :
    List.Perm (getAllValidVersions tags)
      ((tags.map mkEntry).filter (fun e => semverValid e.version)) :=
  List.perm_insertionSort entryLe _

theorem getAllValidVersions_shape (tags : List (List Char)) :
    (getAllValidVersions tags).all
      (fun e => semverValid e.version && e.version == extractVersion e.tag) = true := by
  rw [List.all_eq_true]
  intro e he
  have hmem := (getAllValidVersions_perm tags).mem_iff.mp he
  have hvalid := List.of_mem_filter hmem
  have hmap := List.mem_of_mem_filter hmem
  rw [List.mem_map] at hmap
  obtain ⟨t, -, rfl⟩ := hmap
  simp only [mkEntry, hvalid, Bool.and_eq_true, beq_iff_eq, and_true]
  exact hvalid

theorem eqclass_entryLe {v : List Char} {a b : VersionEntry}
    (ha : semverCmpStr a.version v = .eq)
    (hb : semverCmpStr b.version v = .eq) : entryLe a b := by
  have ha2 : semverParse a.version = semverParse v := semverCmpOpt_eq_iff.mp ha
  have hb2 : semverParse b.version = semverParse v := semverCmpOpt_eq_iff.mp hb
  unfold entryLe semverCmpStr
  rw [ha2, hb2, semverCmpOpt_refl]
  simp

theorem insertionSort_filter_eqclass (l : List VersionEntry) (v : List Char) :
    (List.insertionSort entryLe l).filter
        (fun e => decide (semverCmpStr e.version v = Ordering.eq)) =
      l.filter (fun e => decide (semverCmpStr e.version v = Ordering.eq)) := by
  set p : VersionEntry → Bool := fun e => decide (semverCmpStr e.version v = Ordering.eq) with hp
  have hpchar : ∀ {x : VersionEntry}, p x = true → semverCmpStr x.version v = Ordering.eq := by
    intro x hx
    rw [hp] at hx
    exact of_decide_eq_true hx
  have hsub : List.Sublist (l.filter p) l := List.filter_sublist l
  have hpair : (l.filter p).Pairwise entryLe := by
    apply List.pairwise_of_forall_mem_list
    intro a ha b hb
    exact eqclass_entryLe (hpchar (List.of_mem_filter ha)) (hpchar (List.of_mem_filter hb))
  have hss := List.sublist_insertionSort hpair hsub
  have hmem : ∀ x ∈ l.filter p, p x = true := fun x hx => List.of_mem_filter hx
  have h2 : List.Sublist (l.filter p) ((List.insertionSort entryLe l).filter p) := by
    have h3 := hss.filter p
    rwa [List.filter_eq_self.mpr hmem] at h3
  have hlen : ((List.insertionSort entryLe l).filter p).length = (l.filter p).length := by
    rw [← List.countP_eq_length_filter, ← List.countP_eq_length_filter]
    exact (List.perm_insertionSort entryLe l).countP_eq _
  exact (h2.eq_of_length hlen.symm).symm

theorem glppAux_sublist : ∀ (seen : List (Nat × Nat)) (l : List VersionEntry),
    List.Sublist (glppAux seen l) l
  | _, [] => by simp [glppAux]
  | seen, e :: rest => by
    unfold glppAux
    cases hp : semverParse e.version with
    | none => exact (glppAux_sublist seen rest).cons e
    | some p =>
      by_cases hmem : (p.major, p.minor) ∈ seen
      · simp only [hmem, if_true]
        exact (glppAux_sublist seen rest).cons e
      · simp only [hmem, if_false]
        exact (glppAux_sublist ((p.major, p.minor) :: seen) rest).cons₂ e

theorem glppAux_keys : ∀ (seen : List (Nat × Nat)) (l : List VersionEntry),
    ∀ e ∈ glppAux seen l, ∃ k, minorKeyOf e = some k ∧ k ∉ seen
  | _, [] => by simp [glppAux]
  | seen, e :: rest => by
    unfold glppAux
    cases hp : semverParse e.version with
    | none => exact glppAux_keys seen rest
    | some p =>
      by_cases hmem : (p.major, p.minor) ∈ seen
      · simp only [hmem, if_true]
        exact glppAux_keys seen rest
      · simp only [hmem, if_false]
        intro x hx
        rcases List.mem_cons.mp hx with rfl | hx2
        · exact ⟨(p.major, p.minor), by simp [minorKeyOf, hp], hmem⟩
        · obtain ⟨k, hk1, hk2⟩ := glppAux_keys ((p.major, p.minor) :: seen) rest x hx2
          exact ⟨k, hk1, fun hc => hk2 (List.mem_cons_of_mem _ hc)⟩

theorem glppAux_pairwise : ∀ (seen : List (Nat × Nat)) (l : List VersionEntry),
    (glppAux seen l).Pairwise (fun a b => minorKeyOf a ≠ minorKeyOf b)
  | _, [] => by simp [glppAux]
  | seen, e :: rest => by
    unfold glppAux
    cases hp : semverParse e.version with
    | none => exact glppAux_pairwise seen rest
    | some p =>
      by_cases hmem : (p.major, p.minor) ∈ seen
      · simp only [hmem, if_true]
        exact glppAux_pairwise seen rest
      · simp only [hmem, if_false]
        rw [List.pairwise_cons]
        constructor
        · intro b hb
          obtain ⟨k, hk1, hk2⟩ := glppAux_keys ((p.major, p.minor) :: seen) rest b hb
          have hke : minorKeyOf e = some (p.major, p.minor) := by simp [minorKeyOf, hp]
          rw [hke, hk1]
          intro hc
          exact hk2 (by simp [← Option.some.injEq _ _ |>.mp hc.symm])
        · exact glppAux_pairwise ((p.major, p.minor) :: seen) rest

theorem glppAux_filter_seen : ∀ (seen : List (Nat × Nat)) (l : List VersionEntry)
    (k : Nat × Nat), k ∈ seen →
    (glppAux seen l).filter (fun e => minorKeyOf e == some k) = []
  | _, [], _, _ => by simp [glppAux]
  | seen, e :: rest, k, hk => by
    unfold glppAux
    cases hp : semverParse e.version with
    | none => exact glppAux_filter_seen seen rest k hk
    | some p =>
      by_cases hmem : (p.major, p.minor) ∈ seen
      · simp only [hmem, if_true]
        exact glppAux_filter_seen seen rest k hk
      · simp only [hmem, if_false]
        rw [List.filter_cons]
        have hne : (minorKeyOf e == some k) = false := by
          have hke : minorKeyOf e = some (p.major, p.minor) := by simp [minorKeyOf, hp]
          rw [hke]
          simp only [beq_eq_false_iff_ne, ne_eq, Option.some.injEq]
          intro hc
          rw [hc] at hmem
          exact hmem hk
        rw [hne]
        simp only [Bool.false_eq_true, if_false]
        exact glppAux_filter_seen ((p.major, p.minor) :: seen) rest k
          (List.mem_cons_of_mem _ hk)

theorem glppAux_filter_fresh : ∀ (seen : List (Nat × Nat)) (l : List VersionEntry)
    (k : Nat × Nat), k ∉ seen →
    (glppAux seen l).filter (fun e => minorKeyOf e == some k) =
      (l.filter (fun e => minorKeyOf e == some k)).take 1
  | _, [], _, _ => by simp [glppAux]
  | seen, e :: rest, k, hk => by
    unfold glppAux
    cases hp : semverParse e.version with
    | none =>
      have hne : (minorKeyOf e == some k) = false := by
        have hke : minorKeyOf e = none := by simp [minorKeyOf, hp]
        rw [hke]
        rfl
      rw [List.filter_cons, hne]
      simp only [Bool.false_eq_true, if_false]
      exact glppAux_filter_fresh seen rest k hk
    | some p =>
      have hke : minorKeyOf e = some (p.major, p.minor) := by simp [minorKeyOf, hp]
      by_cases hmem : (p.major, p.minor) ∈ seen
      · simp only [hmem, if_true]
        have hne : (minorKeyOf e == some k) = false := by
          rw [hke]
          simp only [beq_eq_false_iff_ne, ne_eq, Option.some.injEq]
          intro hc
          rw [hc] at hmem
          exact hk hmem
        rw [List.filter_cons, hne]
        simp only [Bool.false_eq_true, if_false]
        exact glppAux_filter_fresh seen rest k hk
      · simp only [hmem, if_false]
        by_cases hkk : (p.major, p.minor) = k
        · subst hkk
          have hyes : (minorKeyOf e == some (p.major, p.minor)) = true := by
            rw [hke]
            simp
          rw [List.filter_cons, List.filter_cons, hyes]
          simp only [if_true]
          rw [glppAux_filter_seen ((p.major, p.minor) :: seen) rest (p.major, p.minor)
            (List.mem_cons_self _ _)]
          simp
        · have hne : (minorKeyOf e == some k) = false := by
            rw [hke]
            simp only [beq_eq_false_iff_ne, ne_eq, Option.some.injEq]
            exact hkk
          rw [List.filter_cons, List.filter_cons, hne]
          simp only [Bool.false_eq_true, if_false]
          exact glppAux_filter_fresh ((p.major, p.minor) :: seen) rest k
            (by
              intro hc
              rcases List.mem_cons.mp hc with hc2 | hc2
              · exact hkk hc2.symm
              · exact hk hc2)

theorem semverCmpStr_refl_ne_lt (x : List Char) : semverCmpStr x x ≠ .lt := by
  unfold semverCmpStr
  rw [semverCmpOpt_refl]
  simp

theorem glpp_first_highest (versions : List VersionEntry)
    (hsorted : versions.Pairwise (fun a b => semverCmpStr a.version b.version ≠ .lt)) :
    ∀ e2 ∈ getLatestPatchPerMinor versions, ∀ e ∈ versions,
      minorKeyOf e = minorKeyOf e2 → semverCmpStr e2.version e.version ≠ .lt := by
  intro e2 he2 e he hkey
  obtain ⟨k, hk, -⟩ := glppAux_keys [] versions e2 he2
  have hfe2 : e2 ∈ (getLatestPatchPerMinor versions).filter
      (fun x => minorKeyOf x == some k) := by
    apply List.mem_filter.mpr
    exact ⟨he2, by rw [hk]; simp⟩
  rw [getLatestPatchPerMinor, glppAux_filter_fresh [] versions k (by simp)] at hfe2
  have hfe : e ∈ versions.filter (fun x => minorKeyOf x == some k) := by
    apply List.mem_filter.mpr
    exact ⟨he, by rw [hkey, hk]; simp⟩
  have hpairf : (versions.filter (fun x => minorKeyOf x == some k)).Pairwise
      (fun a b => semverCmpStr a.version b.version ≠ .lt) :=
    hsorted.sublist (List.filter_sublist versions)
  cases hflt : versions.filter (fun x => minorKeyOf x == some k) with
  | nil =>
    rw [hflt] at hfe
    cases hfe
  | cons h t =>
    rw [hflt] at hfe2 hfe hpairf
    rw [show (h :: t).take 1 = [h] from rfl] at hfe2
    have he2h : e2 = h := by
      rcases List.mem_singleton.mp hfe2 with rfl
      rfl
    subst he2h
    rcases List.mem_cons.mp hfe with rfl | hft
    · exact semverCmpStr_refl_ne_lt e.version
    · exact (List.pairwise_cons.mp hpairf).1 e hft

theorem buildSequentially_length (versions : List VersionEntry) (buildNum : Nat)
    (oc : Nat → BuildOutcome) :
    (buildSequentially versions buildNum oc).length = versions.length := by
  induction versions generalizing oc with
  | nil => rfl
  | cons e rest ih => simp [buildSequentially, ih]

theorem buildSequentially_getD (versions : List VersionEntry) (buildNum : Nat)
    (oc : Nat → BuildOutcome) :
    ∀ i, i < versions.length →
      (buildSequentially versions buildNum oc).getD i ⟨[], [], false, none⟩ =
        buildImage (versions.getD i ⟨[], []⟩).tag (versions.getD i ⟨[], []⟩).version
          buildNum (oc i) := by
  induction versions generalizing oc with
  | nil =>
    intro i hi
    cases hi
  | cons e rest ih =>
    intro i hi
    cases i with
    | zero => rfl
    | succ j =>
      have hj : j < rest.length := by
        simpa using hi
      simpa [buildSequentially] using ih (fun m => oc (m + 1)) j hj

theorem buildImage_success_iff (tag version : List Char) (buildNum : Nat)
    (outcome : BuildOutcome) :
    (buildImage tag version buildNum outcome).success = true ↔
      outcome = .closed (some 0) := by
  cases outcome with
  | closed c =>
    by_cases hc : c = some 0
    · subst hc
      simp [buildImage]
    · simp only [buildImage]
      rw [if_neg (by simpa using hc)]
      simpa using hc
  | spawnError m => simp [buildImage]

theorem buildSequentially_failcount (versions : List VersionEntry) (buildNum : Nat)
    (oc : Nat → BuildOutcome) :
    (buildSequentially versions buildNum oc).countP (fun r => !r.success) =
      (List.range versions.length).countP (fun i => !(oc i == .closed (some 0))) := by
  induction versions generalizing oc with
  | nil => rfl
  | cons e rest ih =>
    rw [buildSequentially, List.length_cons, List.range_succ_eq_map]
    rw [List.countP_cons, List.countP_cons, List.countP_map]
    have hone : ((!(buildImage e.tag e.version buildNum (oc 0)).success) : Bool) =
        (!(oc 0 == BuildOutcome.closed (some 0)) : Bool) := by
      by_cases h : oc 0 = BuildOutcome.closed (some 0)
      · have hs := (buildImage_success_iff e.tag e.version buildNum (oc 0)).mpr h
        rw [hs, h]
        simp
      · have hs : (buildImage e.tag e.version buildNum (oc 0)).success = false := by
          cases hb : (buildImage e.tag e.version buildNum (oc 0)).success
          · rfl
          · exact absurd ((buildImage_success_iff e.tag e.version buildNum (oc 0)).mp hb) h
        rw [hs]
        simp [h]
    rw [hone, ih (fun m => oc (m + 1))]
    have : ((fun i => !(oc i == BuildOutcome.closed (some 0))) ∘ Nat.succ) =
        (fun i => !(oc (i + 1) == BuildOutcome.closed (some 0))) := by
      funext m
      simp [Nat.succ_eq_add_one]
    rw [this]

theorem imageLe_trans (a b c : ImageRef) (h1 : imageLe a b) (h2 : imageLe b c) :
    imageLe a c := by
  unfold imageLe at *
  unfold semverCmpStr at *
  rcases h1 with h1 | ⟨h1, hb1⟩ <;> rcases h2 with h2 | ⟨h2, hb2⟩
  · exact Or.inl (semverCmpOpt_lt_trans h2 h1)
  · rw [semverCmpOpt_eq_iff.mp h2]
    exact Or.inl h1
  · rw [semverCmpOpt_eq_iff.mp h1] at h2
    exact Or.inl h2
  · rw [semverCmpOpt_eq_iff.mp h2]
    exact Or.inr ⟨h1, le_trans hb2 hb1⟩

theorem imageLe_total (a b : ImageRef) : imageLe a b ∨ imageLe b a := by
  unfold imageLe
  cases hab : semverCmpStr b.version a.version with
  | lt => exact Or.inl (Or.inl rfl)
  | gt =>
    refine Or.inr (Or.inl ?hba)
    rw [semverCmpStr_swap a.version b.version, hab]
    rfl
  | eq =>
    have hba : semverCmpStr a.version b.version = .eq := by
      rw [semverCmpStr_swap a.version b.version, hab]
      rfl
    rcases Nat.le_total b.buildNum a.buildNum with h | h
    · exact Or.inl (Or.inr ⟨rfl, h⟩)
    · exact Or.inr (Or.inr ⟨hba, h⟩)

theorem find_first_of_pairwise {α : Type} {R : α → α → Prop} {p : α → Bool} :
    ∀ {l : List α}, l.Pairwise R → ∀ {r : α}, l.find? p = some r →
      ∀ j ∈ l, p j = true → j = r ∨ R r j := by
  intro l
  induction l with
  | nil =>
    intro _ r hf
    cases hf
  | cons h t ih =>
    intro hpw r hf j hj hpj
    rw [List.find?_cons] at hf
    rcases List.pairwise_cons.mp hpw with ⟨hhead, htail⟩
    by_cases hph : p h = true
    · rw [hph] at hf
      have hr : h = r := by
        simpa using hf
      subst hr
      rcases List.mem_cons.mp hj with rfl | hjt
      · exact Or.inl rfl
      · exact Or.inr (hhead j hjt)
    · rw [Bool.not_eq_true] at hph
      rw [hph] at hf
      rcases List.mem_cons.mp hj with rfl | hjt
      · rw [hpj] at hph
        cases hph
      · exact ih htail hf j hjt hpj

theorem semverCmpStr_refl_eq (x : List Char) : semverCmpStr x x = .eq :=
  semverCmpOpt_refl _

theorem findImage_reduce (lines : List (List Char)) (v : List Char)
    (hval : ∀ i ∈ locatorParsed lines, semverValid i.version = true) :
    findImageForVersion (.ok lines) (some v) =
      ((List.insertionSort imageLe (locatorParsed lines)).find?
        (fun i => i.version == v)).map (fun i => i.image) := by
  have hany : (locatorParsed lines).any (fun i => !(semverValid i.version)) = false := by
    rw [List.any_eq_false]
    intro x hx
    simp [hval x hx]
  unfold findImageForVersion
  simp only [hany, Bool.and_false, Bool.false_eq_true, if_false]

/-- C6 (amended): for every desired version and every image listing in which all
regex-parsed tags carry a valid semantic version, findImageForVersion returns
none when no parsed tag has exactly the desired version text, and otherwise
returns the image line of a parsed tag with the desired version and the highest
build number among the tags sharing that version.  (The validity premise is
forced by the counterexample: an invalid parsed version makes the sort
comparator throw and the locator return none.) -/
theorem claim_C6_find_by_version (lines : List (List Char)) (v : List Char)
    (hval : ∀ i ∈ locatorParsed lines, semverValid i.version = true) :
    ((locatorParsed lines).filter (fun i => i.version == v) = [] →
        findImageForVersion (.ok lines) (some v) = none)
    ∧ ((locatorParsed lines).filter (fun i => i.version == v) ≠ [] →
        ∃ r, r ∈ locatorParsed lines ∧ r.version = v
          ∧ findImageForVersion (.ok lines) (some v) = some r.image
          ∧ ∀ j ∈ locatorParsed lines, j.version = v → j.buildNum ≤ r.buildNum) := by
  haveI : IsTrans ImageRef imageLe := ⟨imageLe_trans⟩
  haveI : IsTotal ImageRef imageLe := ⟨imageLe_total⟩
  have hred := findImage_reduce lines v hval
  constructor
  · intro hempty
    rw [hred]
    have hnone : (List.insertionSort imageLe (locatorParsed lines)).find?
        (fun i => i.version == v) = none := by
      rw [List.find?_eq_none]
      intro x hx
      have hxm : x ∈ locatorParsed lines := (List.mem_insertionSort imageLe).mp hx
      have := List.filter_eq_nil_iff.mp hempty x hxm
      simpa using this
    rw [hnone]
    rfl
  · intro hne
    obtain ⟨y, hy⟩ := List.exists_mem_of_ne_nil _ hne
    have hym : y ∈ locatorParsed lines := (List.mem_filter.mp hy).1
    have hyp : (y.version == v) = true := (List.mem_filter.mp hy).2
    have hsome : ((List.insertionSort imageLe (locatorParsed lines)).find?
        (fun i => i.version == v)).isSome := by
      rw [List.find?_isSome]
      exact ⟨y, (List.mem_insertionSort imageLe).mpr hym, hyp⟩
    obtain ⟨r, hr⟩ := Option.isSome_iff_exists.mp hsome
    have hrp := List.find?_some hr
    have hrv : r.version = v := by simpa using hrp
    have hrm : r ∈ locatorParsed lines :=
      (List.mem_insertionSort imageLe).mp (List.mem_of_find?_eq_some hr)
    refine ⟨r, hrm, hrv, ?res, ?max⟩
    · rw [hred, hr]
      rfl
    · intro j hj hjv
      have hpj : (j.version == v) = true := by
        rw [hjv]
        simp
      have hpw : (List.insertionSort imageLe (locatorParsed lines)).Pairwise imageLe :=
        List.sorted_insertionSort imageLe (locatorParsed lines)
      rcases find_first_of_pairwise hpw hr j ((List.mem_insertionSort imageLe).mpr hj) hpj with
        rfl | hle
      · exact le_refl _
      · have heq : semverCmpStr j.version r.version = .eq := by
          rw [hjv, hrv]
          exact semverCmpStr_refl_eq v
        rcases hle with hlt | ⟨-, hb⟩
        · rw [heq] at hlt
          cases hlt
        · exact hb

theorem isPrefixOf_cons_false {x y : Char} {xs ys : List Char} (h : (x == y) = false) :
    (x :: xs).isPrefixOf (y :: ys) = false := by
  simp [List.isPrefixOf, h]

theorem IMAGE_NAME_cons : IMAGE_NAME = 'b' :: ("enallfree/meshtastic-docker").toList := by
  decide

theorem locatorLead_cons : locatorLead = 'm' :: ("eshtastic-docker:v").toList := by
  decide

theorem parseImageLine_buildRepo_none (rest : List Char) :
    parseImageLine ('b' :: rest) = none := by
  unfold parseImageLine
  rw [locatorLead_cons, isPrefixOf_cons_false (by decide)]
  rfl

theorem fullTagOf_shape (version : List Char) (buildNum : Nat) :
    fullTagOf version buildNum =
      ("benallfree/meshtastic-docker:v").toList ++ version ++ '-' :: natToChars buildNum := by
  unfold fullTagOf imageTagOf
  rw [show ("benallfree/meshtastic-docker:v").toList = IMAGE_NAME ++ [':', 'v'] from by decide]
  simp


/-! ### The claims -/

/-- C1: for every build plan, build number and family of child-process
outcomes, buildSequentially returns exactly one BuildResult per plan entry, in
plan order; the i-th result is exactly buildImage applied to the i-th entry and
the i-th outcome, so every entry is attempted regardless of earlier failures;
a result is successful exactly when its process exited with code 0, a spawn
failure records the error message, a nonzero (or null) exit records the exit
code text; and the number of failed results equals the number of failing
outcomes over the plan's indices. -/
theorem claim_C1_sequential_results (versions : List VersionEntry) (buildNum : Nat)
    (oc : Nat → BuildOutcome) :
    (buildSequentially versions buildNum oc).length = versions.length
    ∧ (buildSequentially versions buildNum oc).countP (fun r => !r.success) =
        (List.range versions.length).countP (fun i => !(oc i == .closed (some 0)))
    ∧ (∀ i, i < versions.length →
        (buildSequentially versions buildNum oc).getD i ⟨[], [], false, none⟩ =
          buildImage (versions.getD i ⟨[], []⟩).tag (versions.getD i ⟨[], []⟩).version
            buildNum (oc i))
    ∧ (∀ i, i < versions.length →
        (((buildSequentially versions buildNum oc).getD i ⟨[], [], false, none⟩).success
          = true ↔ oc i = .closed (some 0)))
    ∧ (∀ i, i < versions.length → ∀ m, oc i = .spawnError m →
        ((buildSequentially versions buildNum oc).getD i ⟨[], [], false, none⟩).error
          = some m)
    ∧ (∀ i, i < versions.length → ∀ cd, oc i = .closed cd → cd ≠ some 0 →
        ((buildSequentially versions buildNum oc).getD i ⟨[], [], false, none⟩).error
          = some (("Exit code: ").toList ++ closeCodeChars cd)) := by
  refine ⟨buildSequentially_length versions buildNum oc,
    buildSequentially_failcount versions buildNum oc,
    buildSequentially_getD versions buildNum oc, ?s, ?e1, ?e2⟩
  · intro i hi
    rw [buildSequentially_getD versions buildNum oc i hi]
    exact buildImage_success_iff _ _ _ _
  · intro i hi m hm
    rw [buildSequentially_getD versions buildNum oc i hi, hm]
    simp [buildImage]
  · intro i hi cd hcd hne
    rw [buildSequentially_getD versions buildNum oc i hi, hcd]
    simp only [buildImage]
    rw [if_neg (by simpa using hne)]

/-- Witness for C1: on the concrete three-entry plan where only the second
build exits nonzero, there are three results, exactly one failure, and the
third entry was still attempted. -/
theorem claim_C1_witness :
    2 < samplePlanC1.length
    ∧ (buildSequentially samplePlanC1 1 sampleOutcomesC1).length = 3
    ∧ (buildSequentially samplePlanC1 1 sampleOutcomesC1).countP (fun r => !r.success) = 1
    ∧ (buildSequentially samplePlanC1 1 sampleOutcomesC1).getD 2 ⟨[], [], false, none⟩ =
        buildImage ("v2.5.1").toList ("2.5.1").toList 1 (sampleOutcomesC1 2) := by
  have h := claim_C1_sequential_results samplePlanC1 1 sampleOutcomesC1
  refine ⟨by decide, h.1.trans (by decide), (h.2.1).trans (by decide),
    (h.2.2.1 2 (by decide)).trans (by decide)⟩

/-- C2: on a descending-sorted entry sequence, getLatestPatchPerMinor returns a
subsequence (order of first appearance preserved) with pairwise distinct
major.minor keys, whose entries for each key are exactly the first input entry
carrying that key, and each retained entry has precedence at least that of
every input entry sharing its key. -/
theorem claim_C2_latest_patch_per_minor (versions : List VersionEntry)
    (hsorted : versions.Pairwise (fun a b => semverCmpStr a.version b.version ≠ .lt)) :
    List.Sublist (getLatestPatchPerMinor versions) versions
    ∧ (getLatestPatchPerMinor versions).Pairwise
        (fun a b => minorKeyOf a ≠ minorKeyOf b)
    ∧ (∀ k : Nat × Nat, (getLatestPatchPerMinor versions).filter
        (fun e => minorKeyOf e == some k) =
        (versions.filter (fun e => minorKeyOf e == some k)).take 1)
    ∧ (∀ e2 ∈ getLatestPatchPerMinor versions, ∀ e ∈ versions,
        minorKeyOf e = minorKeyOf e2 → semverCmpStr e2.version e.version ≠ .lt) :=
  ⟨glppAux_sublist [] versions, glppAux_pairwise [] versions,
    fun k => glppAux_filter_fresh [] versions k (by simp),
    glpp_first_highest versions hsorted⟩

/-- Witness for C2 at a concrete descending two-entry catalog slice. -/
theorem claim_C2_witness :
    sampleSortedC2.Pairwise (fun a b => semverCmpStr a.version b.version ≠ .lt)
    ∧ (List.Sublist (getLatestPatchPerMinor sampleSortedC2) sampleSortedC2
      ∧ (getLatestPatchPerMinor sampleSortedC2).Pairwise
          (fun a b => minorKeyOf a ≠ minorKeyOf b)
      ∧ (∀ k : Nat × Nat, (getLatestPatchPerMinor sampleSortedC2).filter
          (fun e => minorKeyOf e == some k) =
          (sampleSortedC2.filter (fun e => minorKeyOf e == some k)).take 1)
      ∧ (∀ e2 ∈ getLatestPatchPerMinor sampleSortedC2, ∀ e ∈ sampleSortedC2,
          minorKeyOf e = minorKeyOf e2 → semverCmpStr e2.version e.version ≠ .lt)) :=
  ⟨by decide, claim_C2_latest_patch_per_minor sampleSortedC2 (by decide)⟩

/-- C3 (amended): for every raw tag list, getAllValidVersions is sorted
descending by semver precedence (not strictly: distinct tags with equal
extracted versions are all retained, so ties can be adjacent), it is a
permutation of the tag-order catalog restricted to entries whose extracted
version is semver-valid, and every output entry carries a valid version equal
to the extraction of its own tag. -/
theorem claim_C3_parse_sorted_valid (tags : List (List Char)) :
    (getAllValidVersions tags).Pairwise
        (fun a b => semverCmpStr a.version b.version ≠ .lt)
    ∧ List.Perm (getAllValidVersions tags)
        ((tags.map mkEntry).filter (fun e => semverValid e.version))
    ∧ (getAllValidVersions tags).all
        (fun e => semverValid e.version && e.version == extractVersion e.tag) = true :=
  ⟨getAllValidVersions_sorted tags, getAllValidVersions_perm tags,
    getAllValidVersions_shape tags⟩

/-- Counterexample for C3 as stated: the distinct raw tags v1.2.3 and 1.2.3
both extract to version 1.2.3, both are retained, and the resulting adjacent
equal versions defeat a strictly descending order. -/
theorem claim_C3_counterexample :
    ¬ (getAllValidVersions [("v1.2.3").toList, ("1.2.3").toList]).Pairwise
        (fun a b => semverCmpStr a.version b.version = .gt) := by
  decide

/-- C4: entries whose versions are semver-equal to any fixed version appear in
getAllValidVersions exactly as they appear, in catalog order, in the unsorted
valid-entry list: the sort is stable and drops none of them. -/
theorem claim_C4_ties_in_catalog_order (tags : List (List Char)) (v : List Char) :
    (getAllValidVersions tags).filter
        (fun e => decide (semverCmpStr e.version v = Ordering.eq)) =
      ((tags.map mkEntry).filter (fun e => semverValid e.version)).filter
        (fun e => decide (semverCmpStr e.version v = Ordering.eq)) :=
  insertionSort_filter_eqclass _ v

/-- C5: on the concrete tag list, filtering by the range above 2.6.0 and
collapsing to the latest patch per minor yields exactly the plan 2.7.16 then
2.6.1. -/
theorem claim_C5_concrete_plan :
    getLatestPatchPerMinor (filterTagsBySemver
        [("v2.7.16").toList, ("v2.7.15").toList, ("v2.6.0").toList, ("v2.6.1").toList,
          ("notaversion").toList] ((">2.6.0").toList)) =
      [⟨("v2.7.16").toList, ("2.7.16").toList⟩, ⟨("v2.6.1").toList, ("2.6.1").toList⟩] := by
  decide

/-- Witness for C6 on a listing with two builds of the desired version: the
locator returns the one with the higher build number. -/
theorem claim_C6_witness :
    (∀ i ∈ locatorParsed sampleLinesC6, semverValid i.version = true)
    ∧ (((locatorParsed sampleLinesC6).filter
          (fun i => i.version == ("2.7.16").toList) = [] →
        findImageForVersion (.ok sampleLinesC6) (some (("2.7.16").toList)) = none)
      ∧ ((locatorParsed sampleLinesC6).filter
          (fun i => i.version == ("2.7.16").toList) ≠ [] →
        ∃ r, r ∈ locatorParsed sampleLinesC6 ∧ r.version = ("2.7.16").toList
          ∧ findImageForVersion (.ok sampleLinesC6) (some (("2.7.16").toList)) = some r.image
          ∧ ∀ j ∈ locatorParsed sampleLinesC6, j.version = ("2.7.16").toList →
              j.buildNum ≤ r.buildNum)) :=
  ⟨by decide, claim_C6_find_by_version sampleLinesC6 (("2.7.16").toList) (by decide)⟩

/-- Counterexample for C6 as stated: the listing holds an image whose parsed
version is exactly the desired 2.7.16, yet the locator returns none, because a
second regex-matching tag carries the semver-invalid version 02.7.16 and the
sort comparator's exception is swallowed into a none result. -/
theorem claim_C6_counterexample :
    parseImageLine ("meshtastic-docker:v2.7.16-1").toList =
        some ⟨("meshtastic-docker:v2.7.16-1").toList, ("2.7.16").toList, 1⟩
    ∧ findImageForVersion (.ok [("meshtastic-docker:v2.7.16-1").toList,
        ("meshtastic-docker:v02.7.16-1").toList]) (some (("2.7.16").toList)) = none := by
  decide

/-- C7: the image locator never throws: an error outcome of the listing
invocation and an empty listing both give none, for any desired version. -/
theorem claim_C7_no_throw (e : List Char) (d : Option (List Char)) :
    findImageForVersion (.error e) d = none ∧ findImageForVersion (.ok []) d = none := by
  refine ⟨rfl, ?em⟩
  cases d <;> rfl

/-- C8 (amended): the locator's tag pattern requires the repository component
to be literally meshtastic-docker: the tag meshtastic-docker:v2.7.16-3 parses
to version 2.7.16 with build number 3, while myrepo:v2.7.16-3, myrepo:latest
and meshtastic-docker:latest are all ignored. -/
theorem claim_C8_tag_pattern :
    parseImageLine ("meshtastic-docker:v2.7.16-3").toList =
        some ⟨("meshtastic-docker:v2.7.16-3").toList, ("2.7.16").toList, 3⟩
    ∧ parseImageLine ("myrepo:v2.7.16-3").toList = none
    ∧ parseImageLine ("myrepo:latest").toList = none
    ∧ parseImageLine ("meshtastic-docker:latest").toList = none := by
  decide

/-- Counterexample for C8 as stated: the tag myrepo:v2.7.16-3 does not parse to
an ImageRef at all — the pattern is anchored on the repository name
meshtastic-docker, so the claimed parse to version 2.7.16, build 3 is wrong. -/
theorem claim_C8_counterexample :
    parseImageLine ("myrepo:v2.7.16-3").toList = none := by
  decide

/-- C9: every numeric exit code of the interactive container process is
propagated unchanged as the command's own exit code. -/
theorem claim_C9_exit_propagation (c : Int) : shellCloseExitCode (some c) = c := by
  simp only [shellCloseExitCode]
  by_cases h : c = 0
  · subst h
    simp
  · rw [if_neg (by simpa using h)]

/-- C10: the full tag produced by the build orchestrator always has the form
benallfree/meshtastic-docker:v-version-buildNumber, and no such tag is accepted
by the shell launcher's locator pattern, whose repository component must be
exactly meshtastic-docker — so the locator never round-trips a builder tag. -/
theorem claim_C10_tag_mismatch (version : List Char) (buildNum : Nat) :
    fullTagOf version buildNum =
        ("benallfree/meshtastic-docker:v").toList ++ version ++ '-' :: natToChars buildNum
    ∧ parseImageLine (fullTagOf version buildNum) = none := by
  refine ⟨fullTagOf_shape version buildNum, ?np⟩
  unfold fullTagOf
  rw [IMAGE_NAME_cons, List.cons_append]
  exact parseImageLine_buildRepo_none _
